import Mathlib

/-!
Verification of the extraction/normalization/ranking/packing pipeline of
`reddit_character_ai_config.py`.

The Python source is shallowly embedded here.  Text is modelled as
`List Char` (Python strings are sequences of code points, as is
`String.data`).  Each `re.sub` call of `Conversation._clean_text` is
embedded as a left-to-right scanner that mirrors the behaviour of the
corresponding regular expression (leftmost match, lazy or greedy
quantifiers as written, continue after the replaced match).  Scanners
whose recursion is not structural take a fuel argument; fuel
`length + 1` always suffices because every step consumes at least one
input character, and on fuel exhaustion the remaining input is returned
unchanged.
-/

namespace RedditCAI

/-- ASCII whitespace recognised by Python regex `\s` and `str.strip`. -/
def isSpaceChar (c : Char) : Bool :=
  c == ' ' || c == '\t' || c == '\n' || c == '\r' || c == '\x0b' || c == '\x0c'

/-- Characters matched by Python regex `\w` (ASCII). -/
def isWordChar (c : Char) : Bool :=
  ('a' ≤ c && c ≤ 'z') || ('A' ≤ c && c ≤ 'Z') || ('0' ≤ c && c ≤ '9') || c == '_'

/-- Characters allowed after the scheme by the URL regex of `_clean_text`
(line 61): `[a-zA-Z]`, `[0-9]`, the class `[$-_@.&+]` (the range from
`$` 0x24 to `_` 0x5F), and the class `[!*\(\),]`.  The `%hh` alternative
adds no character because `%` is inside the 0x24–0x5F range. -/
def isUrlChar (c : Char) : Bool :=
  ('a' ≤ c && c ≤ 'z') || ('A' ≤ c && c ≤ 'Z') || ('0' ≤ c && c ≤ '9') ||
  ('$' ≤ c && c ≤ '_') || c == '!' || c == '*' || c == '\\' || c == '(' || c == ')' || c == ','

/-- True when the list is nonempty and its head satisfies `p`. -/
def headSat (p : Char → Bool) : List Char → Bool
  | [] => false
  | c :: _ => p c

/-- Search for the closing delimiter `d0 :: d` of a lazy group `(.+?)`:
`acc` holds the (reversed) characters captured so far, the close is
tried before each further character is captured, a newline cannot be
captured (`.` does not match a newline), and on success the capture and
the input following the closing delimiter are returned. -/
def findCloseFrom (d0 : Char) (d : List Char) (acc : List Char) :
    List Char → Option (List Char × List Char)
  | [] => none
  | c :: rest =>
    if (d0 :: d).isPrefixOf (c :: rest) then
      some (acc.reverse, (c :: rest).drop (d0 :: d).length)
    else if c == '\n' then none
    else findCloseFrom d0 d (c :: acc) rest

/-- Start the search for the closing delimiter: the lazy group must
capture at least one character before the close may match. -/
def findClose (d0 : Char) (d : List Char) : List Char → Option (List Char × List Char)
  | [] => none
  | c :: rest => if c == '\n' then none else findCloseFrom d0 d [c] rest

/-- One `re.sub(r'D(.+?)D', r'\1', text)` pass for a paired wrapper with
delimiter `d0 :: d` (bold `**`, italic `*`, strikethrough `~~`, inline
code): at each position, if the opening delimiter matches and a closing
delimiter follows a nonempty newline-free capture, the capture replaces
the whole match and scanning continues after it; otherwise scanning
advances one character. -/
def pairSubAux (d0 : Char) (d : List Char) : Nat → List Char → List Char
  | 0, l => l
  | _ + 1, [] => []
  | fuel + 1, c :: rest =>
    if (d0 :: d).isPrefixOf (c :: rest) then
      match findClose d0 d (rest.drop d.length) with
      | some (cap, rest2) => cap ++ pairSubAux d0 d fuel rest2
      | none => c :: pairSubAux d0 d fuel rest
    else c :: pairSubAux d0 d fuel rest

def pairSub (d0 : Char) (d : List Char) (l : List Char) : List Char :=
  pairSubAux d0 d (l.length + 1) l

/-- `re.sub(r'\^(.+?)', r'\1', text)` (line 53, comment: superscript).
The lazy group is at the end of the pattern, so it matches exactly one
character: the substitution deletes a caret that is followed by a
non-newline character and consumes that character with the match. -/
def superSub : List Char → List Char
  | [] => []
  | [c] => [c]
  | c :: c2 :: rest =>
    if c == '^' then
      if c2 == '\n' then c :: superSub (c2 :: rest)
      else c2 :: superSub rest
    else c :: superSub (c2 :: rest)

/-- `re.sub(r'^&gt;.*$', '', text, flags=re.MULTILINE)` (line 57):
remove the content of any line that starts with `&gt;` (the newline
itself is kept).  The flag records whether the current position is a
line start. -/
def quoteSubAAux : Nat → Bool → List Char → List Char
  | 0, _, l => l
  | _ + 1, _, [] => []
  | fuel + 1, atStart, c :: rest =>
    if atStart && ['&', 'g', 't', ';'].isPrefixOf (c :: rest) then
      quoteSubAAux fuel false (rest.dropWhile (fun x => x != '\n'))
    else c :: quoteSubAAux fuel (c == '\n') rest

def quoteSubA (l : List Char) : List Char := quoteSubAAux (l.length + 1) true l

/-- `re.sub(r'^\s*&gt;.*$', '', text, flags=re.MULTILINE)` (line 58).
At a line start, greedy `\s*` consumes the maximal whitespace run (which
may span newlines); since `&` is not whitespace the backtracking regex
matches exactly when `&gt;` follows that run, and `.*$` then removes up
to the end of that line. -/
def quoteSubBAux : Nat → Bool → List Char → List Char
  | 0, _, l => l
  | _ + 1, _, [] => []
  | fuel + 1, atStart, c :: rest =>
    if atStart && ['&', 'g', 't', ';'].isPrefixOf ((c :: rest).dropWhile isSpaceChar) then
      quoteSubBAux fuel false
        (((c :: rest).dropWhile isSpaceChar).dropWhile (fun x => x != '\n'))
    else c :: quoteSubBAux fuel (c == '\n') rest

def quoteSubB (l : List Char) : List Char := quoteSubBAux (l.length + 1) true l

/-- Match `http[s]?://` (the scheme part of the URL regex of line 61)
and return the input after it. -/
def schemeSplit (l : List Char) : Option (List Char) :=
  if ['h', 't', 't', 'p', 's', ':', '/', '/'].isPrefixOf l then some (l.drop 8)
  else if ['h', 't', 't', 'p', ':', '/', '/'].isPrefixOf l then some (l.drop 7)
  else none

/-- The URL removal `re.sub` of line 61: a scheme followed by at least
one allowed character; the greedy `+` consumes the maximal run. -/
def urlSubAux : Nat → List Char → List Char
  | 0, l => l
  | _ + 1, [] => []
  | fuel + 1, c :: rest =>
    match schemeSplit (c :: rest) with
    | some after =>
      if headSat isUrlChar after then urlSubAux fuel (after.dropWhile isUrlChar)
      else c :: urlSubAux fuel rest
    | none => c :: urlSubAux fuel rest

def urlSub (l : List Char) : List Char := urlSubAux (l.length + 1) l

/-- One `re.sub(r'PRE\w+', '', text)` pass for the user and subreddit
mention patterns of lines 64 to 67 (`/u/`, `u/`, `/r/`, `r/`): the
literal part `pre` followed by at least one `\w` character is removed,
with the greedy `\w+` consuming the maximal run. -/
def mentionSubAux (pre : List Char) : Nat → List Char → List Char
  | 0, l => l
  | _ + 1, [] => []
  | fuel + 1, c :: rest =>
    if pre.isPrefixOf (c :: rest) && headSat isWordChar ((c :: rest).drop pre.length) then
      mentionSubAux pre fuel (((c :: rest).drop pre.length).dropWhile isWordChar)
    else c :: mentionSubAux pre fuel rest

def mentionSub (pre : List Char) (l : List Char) : List Char :=
  mentionSubAux pre (l.length + 1) l

/-- The suffix of `l` after its last newline (all of `l` when it has no
newline). -/
def afterLastNl (l : List Char) : List Char :=
  (l.reverse.takeWhile (fun x => x != '\n')).reverse

/-- `re.sub(r'\n\s*\n\s*\n', '\n\n', text)` (line 70).  A match starts
at a newline whose following maximal whitespace run contains at least
two more newlines; the backtracking greedy `\s*`s make the match extend
exactly through the last newline of that run, and it is replaced by two
newlines. -/
def collapseNlAux : Nat → List Char → List Char
  | 0, l => l
  | _ + 1, [] => []
  | fuel + 1, c :: rest =>
    if c = '\n' ∧ 2 ≤ (rest.takeWhile isSpaceChar).count '\n' then
      '\n' :: '\n' ::
        collapseNlAux fuel (afterLastNl (rest.takeWhile isSpaceChar) ++ rest.dropWhile isSpaceChar)
    else c :: collapseNlAux fuel rest

def collapseNl (l : List Char) : List Char := collapseNlAux (l.length + 1) l

/-- Characters of the class `[ \t]`. -/
def isBlankChar (c : Char) : Bool := c == ' ' || c == '\t'

/-- `re.sub(r'[ \t]+', ' ', text)` (line 71): every maximal run of
spaces and tabs becomes a single space. -/
def collapseSpaces : List Char → List Char
  | [] => []
  | [c] => if isBlankChar c then [' '] else [c]
  | c :: c2 :: rest =>
    if isBlankChar c then
      if isBlankChar c2 then collapseSpaces (c2 :: rest)
      else ' ' :: collapseSpaces (c2 :: rest)
    else c :: collapseSpaces (c2 :: rest)

/-- `text.strip()` (line 72). -/
def stripList (l : List Char) : List Char :=
  ((l.dropWhile isSpaceChar).reverse.dropWhile isSpaceChar).reverse

/-- Case-insensitive test for the literal `EDIT:` at the head of the
input. -/
def isEditMarker : List Char → Bool
  | a :: b :: c :: d :: e :: _ =>
    (a == 'E' || a == 'e') && (b == 'D' || b == 'd') && (c == 'I' || c == 'i') &&
    (d == 'T' || d == 't') && e == ':'
  | _ => false

/-- `re.sub(r'\s*EDIT:.*$', '', text, flags=re.IGNORECASE | re.MULTILINE)`
(lines 75 and 76; the second pattern `\s*Edit:.*$` also carries
IGNORECASE and behaves identically).  Since `E`/`e` is not whitespace,
the greedy backtracking `\s*` matches exactly when the maximal
whitespace run starting at the current position is followed by `EDIT:`
(case-insensitively); the match then extends to the end of that line. -/
def editSubAux : Nat → List Char → List Char
  | 0, l => l
  | _ + 1, [] => []
  | fuel + 1, c :: rest =>
    if isEditMarker ((c :: rest).dropWhile isSpaceChar) then
      editSubAux fuel (((c :: rest).dropWhile isSpaceChar).dropWhile (fun x => x != '\n'))
    else c :: editSubAux fuel rest

def editSub (l : List Char) : List Char := editSubAux (l.length + 1) l

/-- The body of `Conversation._clean_text` (lines 44 to 78), applied in
source order: bold, italic, strikethrough, superscript, inline code,
the two quote-line removals, URLs, the four mention removals, newline
collapsing, space collapsing, strip, and the two edit-marker removals. -/
def cleanList (l : List Char) : List Char :=
  editSub (editSub (stripList (collapseSpaces (collapseNl
    (mentionSub ['r', '/'] (mentionSub ['/', 'r', '/']
      (mentionSub ['u', '/'] (mentionSub ['/', 'u', '/']
        (urlSub (quoteSubB (quoteSubA
          (pairSub '`' [] (superSub (pairSub '~' ['~']
            (pairSub '*' [] (pairSub '*' ['*'] l))))))))))))))))

/-- `Conversation._clean_text` (line 44): empty input is returned as the
empty string, otherwise the sequence of substitutions is applied. -/
def cleanText (s : String) : String :=
  if s = "" then "" else String.mk (cleanList s.data)

/-- The `Conversation` dataclass (lines 27 to 33). -/
structure Conversation where
  original_text : String
  reply_text : String
  score : Int
  length : Nat
deriving DecidableEq, Repr

/-- `Conversation.format_for_character_ai` (lines 35 to 42). -/
def formatForCharacterAI (conv : Conversation) (userPlaceholder : String) : String :=
  userPlaceholder ++ ": " ++ cleanText conv.original_text ++
    "\n\x7b\x7bchar\x7d\x7d: " ++ cleanText conv.reply_text ++ "\n\n"

/-- `self.max_definition_length` (line 86). -/
def maxDefinitionLength : Nat := 32000

/-- `self.max_single_conversation_length` (line 87). -/
def maxSingleConversationLength : Nat := 800

/-- `self.min_comment_length` (line 88). -/
def minCommentLength : Nat := 10

/-- `self.max_comment_length` (line 89). -/
def maxCommentLength : Nat := 300

/-- The f-string `f"{{{{random_user_{user_counter}}}}}"` of line 190. -/
def placeholderStr (n : Nat) : String :=
  "\x7b\x7brandom_user_" ++ toString n ++ "\x7d\x7d"

/-- The loop of `_build_definition` (lines 188 to 201): render each
conversation with the current rotating placeholder; stop as soon as one
rendering would push the running total over `max_definition_length`;
after each accepted conversation advance the counter by
`user_counter = (user_counter % 5) + 1`. -/
def buildLoop : List Conversation → Nat → Nat → List String
  | [], _, _ => []
  | conv :: rest, counter, total =>
    let f := formatForCharacterAI conv (placeholderStr counter)
    if total + f.length > maxDefinitionLength then []
    else f :: buildLoop rest (counter % 5 + 1) (total + f.length)

/-- The intro of `_build_definition` (line 184). -/
def introFor (username : String) : String :=
  "This character is based on the Reddit user u/" ++ username ++
    ". Here are examples of how they typically respond:\n\n"

/-- `CharacterGenerator._build_definition` (lines 177 to 206): the intro
is appended first and counted against the budget, then the loop runs
with the counter starting at 1, and the parts are concatenated. -/
def buildDefinition (convs : List Conversation) (username : String) : String :=
  String.join (introFor username :: buildLoop convs 1 (introFor username).length)

/-- The sort key `lambda x: (x.score, -x.length)` of line 105. -/
def sortKey (c : Conversation) : Int × Int :=
  (c.score, -(c.length : Int))

/-- Lexicographic order on pairs of integers, as Python compares tuples. -/
def keyLe (p q : Int × Int) : Prop :=
  p.1 < q.1 ∨ (p.1 = q.1 ∧ p.2 ≤ q.2)

/-- `a` may precede `b` in the output of
`conversations.sort(key=lambda x: (x.score, -x.length), reverse=True)`:
with `reverse=True` the keys are in descending order. -/
def sortRel (a b : Conversation) : Prop :=
  keyLe (sortKey b) (sortKey a)

instance : DecidableRel sortRel := fun a b =>
  inferInstanceAs (Decidable ((sortKey b).1 < (sortKey a).1 ∨
    ((sortKey b).1 = (sortKey a).1 ∧ (sortKey b).2 ≤ (sortKey a).2)))

instance : IsTotal Conversation sortRel := by
  constructor
  intro a b
  unfold sortRel keyLe
  omega

instance : IsTrans Conversation sortRel := by
  constructor
  intro a b c hab hbc
  unfold sortRel keyLe at *
  omega

/-- The sort of line 105: a stable sort placing keys in descending
order (`reverse=True`), embedded as an insertion sort with the
corresponding total relation. -/
def sortConversations (l : List Conversation) : List Conversation :=
  List.insertionSort sortRel l

/-- What a comment replies to (lines 136 to 149): a root comment
replies to its submission (title and self text); a non-root comment
replies to a parent that may or may not expose a body. -/
inductive ParentSource where
  | rootSubmission (title : String) (selftext : String)
  | childComment (body : Option String)
deriving DecidableEq, Repr

/-- A raw comment record as consumed by `_extract_conversations`. -/
structure RawComment where
  body : String
  score : Int
  parent : ParentSource
deriving DecidableEq, Repr

/-- The parent text computed in lines 136 to 149: for a root comment the
submission title, with the self text appended after a newline only when
the self text is truthy and shorter than `max_comment_length`; for a
non-root comment the parent body when the parent has one. -/
def parentTextOf : ParentSource → Option String
  | ParentSource.rootSubmission title selftext =>
    if selftext ≠ "" ∧ selftext.length < maxCommentLength then some (title ++ "\n" ++ selftext)
    else some title
  | ParentSource.childComment body => body

/-- The per-record body of the loop of `_extract_conversations` (lines
125 to 170): skip deleted or removed bodies, filter the body length,
resolve the parent text, filter the parent text, build the
`Conversation` with the score clamped at 0, and keep it only when its
rendering with the `\x7b\x7brandom_user_1\x7d\x7d` placeholder fits in
`max_single_conversation_length`. -/
def buildConversation (c : RawComment) : Option Conversation :=
  if c.body = "" ∨ c.body = "[deleted]" ∨ c.body = "[removed]" then none
  else if c.body.length < minCommentLength ∨ c.body.length > maxCommentLength then none
  else
    match parentTextOf c.parent with
    | none => none
    | some pt =>
      if pt = "" ∨ pt.length < minCommentLength ∨ pt.length > maxCommentLength then none
      else
        let conv : Conversation :=
          ⟨pt, c.body, max c.score 0, pt.length + c.body.length⟩
        if (formatForCharacterAI conv (placeholderStr 1)).length ≤ maxSingleConversationLength then
          some conv
        else none

/-- Render a list of conversations with the rotating placeholder and no
budget check; used to state which prefix of its input `buildLoop`
accepts. -/
def renderAll : List Conversation → Nat → List String
  | [], _ => []
  | conv :: rest, counter =>
    formatForCharacterAI conv (placeholderStr counter) :: renderAll rest (counter % 5 + 1)

/-- Total length of a list of strings. -/
def sumLen (L : List String) : Nat := (L.map String.length).sum

/-- The counter value after `n` accepted conversations starting from
`counter`. -/
def rotIter : Nat → Nat → Nat
  | counter, 0 => counter
  | counter, n + 1 => rotIter (counter % 5 + 1) n

/-- Placeholder conversation for indexed access. -/
def defaultConv : Conversation := ⟨"", "", 0, 0⟩

/-- A username of 32001 characters, used to exhibit an input on which
the intro alone exceeds the total budget. -/
def bigUsername : String := String.mk (List.replicate 32001 'a')

/-- Two conversations with equal score and different lengths, exhibiting
the tie-breaking direction of the sort. -/
def exConvA : Conversation := ⟨"", "", 1, 2⟩

def exConvB : Conversation := ⟨"", "", 1, 1⟩

/-- A small well-formed conversation used to instantiate theorems with
hypotheses at a concrete input. -/
def exConvC : Conversation := ⟨"parent text okay", "reply text okay", 1, 31⟩

/-- A raw record whose body has length 5. -/
def exRecord : RawComment := ⟨"hello", 3, ParentSource.childComment (some "a parent body text")⟩

/-! ## Helper lemmas -/

theorem length_dropWhile_le' (p : Char → Bool) :
    ∀ l : List Char, (l.dropWhile p).length ≤ l.length := by
  intro l
  induction l with
  | nil => simp
  | cons c rest ih =>
    simp only [List.dropWhile_cons]
    split
    · exact Nat.le_succ_of_le ih
    · simp

theorem length_takeWhile_le' (p : Char → Bool) :
    ∀ l : List Char, (l.takeWhile p).length ≤ l.length := by
  intro l
  induction l with
  | nil => simp
  | cons c rest ih =>
    simp only [List.takeWhile_cons]
    split
    · simpa using ih
    · simp

theorem findCloseFrom_len (d0 : Char) (d : List Char) :
    ∀ cs acc cap rest2, findCloseFrom d0 d acc cs = some (cap, rest2) →
      cap.length + rest2.length ≤ acc.length + cs.length := by
  intro cs
  induction cs with
  | nil => intro acc cap rest2 h; simp [findCloseFrom] at h
  | cons c rest ih =>
    intro acc cap rest2 h
    simp only [findCloseFrom] at h
    split at h
    · simp only [Option.some.injEq, Prod.mk.injEq] at h
      obtain ⟨h1, h2⟩ := h
      subst h1
      subst h2
      simp only [List.length_reverse, List.length_drop, List.length_cons]
      omega
    · split at h
      · exact absurd h (by simp)
      · have := ih (c :: acc) cap rest2 h
        simp only [List.length_cons] at this ⊢
        omega

theorem findClose_len (d0 : Char) (d : List Char) :
    ∀ cs cap rest2, findClose d0 d cs = some (cap, rest2) →
      cap.length + rest2.length ≤ cs.length := by
  intro cs cap rest2 h
  cases cs with
  | nil => simp [findClose] at h
  | cons c rest =>
    simp only [findClose] at h
    split at h
    · exact absurd h (by simp)
    · have := findCloseFrom_len d0 d rest [c] cap rest2 h
      simp only [List.length_cons, List.length_singleton, List.length_nil] at this ⊢
      omega

theorem pairSubAux_len (d0 : Char) (d : List Char) :
    ∀ fuel l, (pairSubAux d0 d fuel l).length ≤ l.length := by
  intro fuel
  induction fuel with
  | zero => intro l; simp [pairSubAux]
  | succ n ih =>
    intro l
    match l with
    | [] => simp [pairSubAux]
    | c :: rest =>
      simp only [pairSubAux]
      split
      · cases hfc : findClose d0 d (rest.drop d.length) with
        | none =>
          simp only [hfc, List.length_cons]
          exact Nat.succ_le_succ (ih rest)
        | some pr =>
          obtain ⟨cap, rest2⟩ := pr
          have h1 := findClose_len d0 d _ _ _ hfc
          have h2 : (rest.drop d.length).length ≤ rest.length := by
            simp [List.length_drop]
          have h3 := ih rest2
          simp only [hfc, List.length_append, List.length_cons]
          omega
      · simp only [List.length_cons]
        exact Nat.succ_le_succ (ih rest)

theorem pairSub_len (d0 : Char) (d : List Char) (l : List Char) :
    (pairSub d0 d l).length ≤ l.length :=
  pairSubAux_len d0 d (l.length + 1) l

theorem superSub_len : ∀ l : List Char, (superSub l).length ≤ l.length := by
  intro l
  induction l using superSub.induct with
  | case1 => simp [superSub]
  | case2 => simp [superSub]
  | case3 c c2 rest h1 h2 ih =>
    simp only [List.length_cons] at ih
    simp [superSub, h1, h2]
    omega
  | case4 c c2 rest h1 h2 ih =>
    simp [superSub, h1, h2]
    omega
  | case5 c c2 rest h1 ih =>
    simp only [List.length_cons] at ih
    simp [superSub, h1]
    omega

theorem quoteSubAAux_len :
    ∀ fuel atStart (l : List Char), (quoteSubAAux fuel atStart l).length ≤ l.length := by
  intro fuel
  induction fuel with
  | zero => intro b l; simp [quoteSubAAux]
  | succ n ih =>
    intro b l
    match l with
    | [] => simp [quoteSubAAux]
    | c :: rest =>
      simp only [quoteSubAAux]
      split
      · have h1 := ih false (rest.dropWhile (fun x => x != '\n'))
        have h2 := length_dropWhile_le' (fun x => x != '\n') rest
        simp only [List.length_cons]
        omega
      · simp only [List.length_cons]
        exact Nat.succ_le_succ (ih (c == '\n') rest)

theorem quoteSubA_len (l : List Char) : (quoteSubA l).length ≤ l.length :=
  quoteSubAAux_len (l.length + 1) true l

theorem quoteSubBAux_len :
    ∀ fuel atStart (l : List Char), (quoteSubBAux fuel atStart l).length ≤ l.length := by
  intro fuel
  induction fuel with
  | zero => intro b l; simp [quoteSubBAux]
  | succ n ih =>
    intro b l
    match l with
    | [] => simp [quoteSubBAux]
    | c :: rest =>
      simp only [quoteSubBAux]
      split
      · have h1 := ih false (((c :: rest).dropWhile isSpaceChar).dropWhile (fun x => x != '\n'))
        have h2 := length_dropWhile_le' (fun x => x != '\n') ((c :: rest).dropWhile isSpaceChar)
        have h3 := length_dropWhile_le' isSpaceChar (c :: rest)
        omega
      · simp only [List.length_cons]
        exact Nat.succ_le_succ (ih (c == '\n') rest)

theorem quoteSubB_len (l : List Char) : (quoteSubB l).length ≤ l.length :=
  quoteSubBAux_len (l.length + 1) true l

theorem schemeSplit_len :
    ∀ l after, schemeSplit l = some after → after.length ≤ l.length := by
  intro l after h
  simp only [schemeSplit] at h
  split at h
  · simp only [Option.some.injEq] at h
    subst h
    simp [List.length_drop]
  · split at h
    · simp only [Option.some.injEq] at h
      subst h
      simp [List.length_drop]
    · exact absurd h (by simp)

theorem urlSubAux_len : ∀ fuel (l : List Char), (urlSubAux fuel l).length ≤ l.length := by
  intro fuel
  induction fuel with
  | zero => intro l; simp [urlSubAux]
  | succ n ih =>
    intro l
    match l with
    | [] => simp [urlSubAux]
    | c :: rest =>
      simp only [urlSubAux]
      cases hs : schemeSplit (c :: rest) with
      | none =>
        simp only [List.length_cons]
        exact Nat.succ_le_succ (ih rest)
      | some after =>
        simp only [hs]
        split
        · have h1 := ih (after.dropWhile isUrlChar)
          have h2 := length_dropWhile_le' isUrlChar after
          have h3 := schemeSplit_len (c :: rest) after hs
          omega
        · simp only [List.length_cons]
          exact Nat.succ_le_succ (ih rest)

theorem urlSub_len (l : List Char) : (urlSub l).length ≤ l.length :=
  urlSubAux_len (l.length + 1) l

theorem mentionSubAux_len (pre : List Char) :
    ∀ fuel (l : List Char), (mentionSubAux pre fuel l).length ≤ l.length := by
  intro fuel
  induction fuel with
  | zero => intro l; simp [mentionSubAux]
  | succ n ih =>
    intro l
    match l with
    | [] => simp [mentionSubAux]
    | c :: rest =>
      simp only [mentionSubAux]
      split
      · have h1 := ih (((c :: rest).drop pre.length).dropWhile isWordChar)
        have h2 := length_dropWhile_le' isWordChar ((c :: rest).drop pre.length)
        have h3 : ((c :: rest).drop pre.length).length ≤ (c :: rest).length := by
          simp [List.length_drop]
        omega
      · simp only [List.length_cons]
        exact Nat.succ_le_succ (ih rest)

theorem mentionSub_len (pre : List Char) (l : List Char) :
    (mentionSub pre l).length ≤ l.length :=
  mentionSubAux_len pre (l.length + 1) l

theorem takeWhile_ne_len_lt (a : Char) :
    ∀ l : List Char, a ∈ l → (l.takeWhile (fun x => x != a)).length < l.length := by
  intro l
  induction l with
  | nil => intro h; simp at h
  | cons c rest ih =>
    intro h
    simp only [List.takeWhile_cons]
    split
    · next hc =>
      have hca : c ≠ a := by simpa using hc
      have : a ∈ rest := by
        cases List.mem_cons.mp h with
        | inl h' => exact absurd h'.symm hca
        | inr h' => exact h'
      simpa using ih this
    · simp

theorem afterLastNl_len_lt (l : List Char) (h : '\n' ∈ l) :
    (afterLastNl l).length < l.length := by
  unfold afterLastNl
  have hrev : '\n' ∈ l.reverse := List.mem_reverse.mpr h
  have := takeWhile_ne_len_lt '\n' l.reverse hrev
  simpa using this

theorem collapseNlAux_len : ∀ fuel (l : List Char), (collapseNlAux fuel l).length ≤ l.length := by
  intro fuel
  induction fuel with
  | zero => intro l; simp [collapseNlAux]
  | succ n ih =>
    intro l
    match l with
    | [] => simp [collapseNlAux]
    | c :: rest =>
      simp only [collapseNlAux]
      split
      · next hcond =>
        obtain ⟨-, hcount⟩ := hcond
        have hmem : '\n' ∈ rest.takeWhile isSpaceChar := by
          have : 0 < (rest.takeWhile isSpaceChar).count '\n' := by omega
          exact List.count_pos_iff.mp this
        have h1 := afterLastNl_len_lt (rest.takeWhile isSpaceChar) hmem
        have h2 := ih (afterLastNl (rest.takeWhile isSpaceChar) ++ rest.dropWhile isSpaceChar)
        have h3 : (rest.takeWhile isSpaceChar).length + (rest.dropWhile isSpaceChar).length
            = rest.length := by
          have h4 := congrArg List.length (List.takeWhile_append_dropWhile isSpaceChar rest)
          simp only [List.length_append] at h4
          exact h4
        simp only [List.length_cons, List.length_append] at h2 ⊢
        omega
      · simp only [List.length_cons]
        exact Nat.succ_le_succ (ih rest)

theorem collapseNl_len (l : List Char) : (collapseNl l).length ≤ l.length :=
  collapseNlAux_len (l.length + 1) l

theorem collapseSpaces_len : ∀ l : List Char, (collapseSpaces l).length ≤ l.length := by
  intro l
  induction l using collapseSpaces.induct with
  | case1 => simp [collapseSpaces]
  | case2 c h => simp [collapseSpaces, h]
  | case3 c h => simp [collapseSpaces, h]
  | case4 c c2 rest h1 h2 ih =>
    simp only [List.length_cons] at ih
    simp [collapseSpaces, h1, h2]
    omega
  | case5 c c2 rest h1 h2 ih =>
    simp only [List.length_cons] at ih
    simp [collapseSpaces, h1, h2]
    omega
  | case6 c c2 rest h1 ih =>
    simp only [List.length_cons] at ih
    simp [collapseSpaces, h1]
    omega

theorem stripList_len (l : List Char) : (stripList l).length ≤ l.length := by
  unfold stripList
  have h1 := length_dropWhile_le' isSpaceChar l
  have h2 := length_dropWhile_le' isSpaceChar (l.dropWhile isSpaceChar).reverse
  simp only [List.length_reverse] at *
  omega

theorem editSubAux_len : ∀ fuel (l : List Char), (editSubAux fuel l).length ≤ l.length := by
  intro fuel
  induction fuel with
  | zero => intro l; simp [editSubAux]
  | succ n ih =>
    intro l
    match l with
    | [] => simp [editSubAux]
    | c :: rest =>
      simp only [editSubAux]
      split
      · have h1 := ih (((c :: rest).dropWhile isSpaceChar).dropWhile (fun x => x != '\n'))
        have h2 := length_dropWhile_le' (fun x => x != '\n') ((c :: rest).dropWhile isSpaceChar)
        have h3 := length_dropWhile_le' isSpaceChar (c :: rest)
        omega
      · simp only [List.length_cons]
        exact Nat.succ_le_succ (ih rest)

theorem editSub_len (l : List Char) : (editSub l).length ≤ l.length :=
  editSubAux_len (l.length + 1) l

theorem cleanList_len (l : List Char) : (cleanList l).length ≤ l.length := by
  unfold cleanList
  exact le_trans (editSub_len _) (le_trans (editSub_len _) (le_trans (stripList_len _)
    (le_trans (collapseSpaces_len _) (le_trans (collapseNl_len _) (le_trans (mentionSub_len _ _)
    (le_trans (mentionSub_len _ _) (le_trans (mentionSub_len _ _) (le_trans (mentionSub_len _ _)
    (le_trans (urlSub_len _) (le_trans (quoteSubB_len _) (le_trans (quoteSubA_len _)
    (le_trans (pairSub_len _ _ _) (le_trans (superSub_len _) (le_trans (pairSub_len _ _ _)
    (le_trans (pairSub_len _ _ _) (pairSub_len _ _ _))))))))))))))))

theorem format_len_eq (conv : Conversation) (p q : String) (h : p.length = q.length) :
    (formatForCharacterAI conv p).length = (formatForCharacterAI conv q).length := by
  simp only [formatForCharacterAI, String.length_append, h]

theorem placeholderStr_len (n : Nat) (h1 : 1 ≤ n) (h5 : n ≤ 5) :
    (placeholderStr n).length = 17 := by
  interval_cases n <;> decide

theorem sumLen_cons (a : String) (L : List String) :
    sumLen (a :: L) = a.length + sumLen L := by
  simp [sumLen]

theorem buildLoop_budget : ∀ (convs : List Conversation) (counter total : Nat),
    total ≤ maxDefinitionLength →
    total + sumLen (buildLoop convs counter total) ≤ maxDefinitionLength := by
  intro convs
  induction convs with
  | nil => intro counter total h; simpa [buildLoop, sumLen] using h
  | cons c rest ih =>
    intro counter total h
    by_cases hov : total + (formatForCharacterAI c (placeholderStr counter)).length
        > maxDefinitionLength
    · simpa [buildLoop, hov, sumLen] using h
    · have hfit : total + (formatForCharacterAI c (placeholderStr counter)).length
          ≤ maxDefinitionLength := by omega
      have hrec := ih (counter % 5 + 1)
        (total + (formatForCharacterAI c (placeholderStr counter)).length) hfit
      simp only [buildLoop, if_neg hov, sumLen_cons]
      omega

theorem foldl_append_len : ∀ (L : List String) (s : String),
    (L.foldl (fun r t => r ++ t) s).length = s.length + sumLen L := by
  intro L
  induction L with
  | nil => intro s; simp [sumLen]
  | cons a L ih =>
    intro s
    simp only [List.foldl_cons, ih (s ++ a), String.length_append, sumLen_cons]
    omega

theorem join_len (L : List String) : (String.join L).length = sumLen L := by
  unfold String.join
  rw [foldl_append_len]
  simp

theorem buildLoop_getD : ∀ (convs : List Conversation) (counter total n : Nat),
    n < (buildLoop convs counter total).length →
    (buildLoop convs counter total).getD n "" =
      formatForCharacterAI (convs.getD n defaultConv) (placeholderStr (rotIter counter n)) := by
  intro convs
  induction convs with
  | nil => intro counter total n h; simp [buildLoop] at h
  | cons c rest ih =>
    intro counter total n h
    by_cases hov : total + (formatForCharacterAI c (placeholderStr counter)).length
        > maxDefinitionLength
    · simp [buildLoop, hov] at h
    · simp only [buildLoop, if_neg hov] at h ⊢
      cases n with
      | zero => simp [rotIter]
      | succ m =>
        simp only [List.getD_cons_succ, List.length_cons] at h ⊢
        have hrec := ih (counter % 5 + 1)
          (total + (formatForCharacterAI c (placeholderStr counter)).length) m (by omega)
        simpa [rotIter] using hrec

theorem rotIter_mod (n : Nat) : ∀ counter : Nat,
    rotIter (counter % 5 + 1) n = (counter + n) % 5 + 1 := by
  induction n with
  | zero => intro counter; simp [rotIter]
  | succ m ih =>
    intro counter
    have h1 : rotIter (counter % 5 + 1) (m + 1) = rotIter ((counter % 5 + 1) % 5 + 1) m := rfl
    rw [h1, ih (counter % 5 + 1)]
    omega

theorem rotIter_one (n : Nat) : rotIter 1 n = n % 5 + 1 := by
  have h := rotIter_mod n 0
  simpa using h

theorem sortRel_imp (a b : Conversation) (h : sortRel a b) :
    a.score > b.score ∨ (a.score = b.score ∧ a.length ≤ b.length) := by
  unfold sortRel keyLe sortKey at h
  dsimp only at h
  rcases h with h | ⟨h1, h2⟩
  · exact Or.inl h
  · refine Or.inr ⟨h1.symm, ?_⟩
    omega

theorem c3_per_item_general : ∀ (convs : List Conversation) (counter total : Nat),
    1 ≤ counter → counter ≤ 5 →
    (∀ c ∈ convs,
      (formatForCharacterAI c (placeholderStr 1)).length ≤ maxSingleConversationLength) →
    ∀ s ∈ buildLoop convs counter total, s.length ≤ maxSingleConversationLength := by
  intro convs
  induction convs with
  | nil => intro counter total h1 h5 hc s hs; simp [buildLoop] at hs
  | cons c rest ih =>
    intro counter total h1 h5 hc s hs
    by_cases hov : total + (formatForCharacterAI c (placeholderStr counter)).length
        > maxDefinitionLength
    · simp [buildLoop, hov] at hs
    · simp only [buildLoop, if_neg hov, List.mem_cons] at hs
      cases hs with
      | inl he =>
        subst he
        have hlen : (placeholderStr counter).length = (placeholderStr 1).length := by
          rw [placeholderStr_len counter h1 h5, placeholderStr_len 1 (by omega) (by omega)]
        rw [format_len_eq c _ _ hlen]
        exact hc c (List.mem_cons_self c rest)
      | inr hm =>
        exact ih (counter % 5 + 1) _ (by omega) (by omega)
          (fun x hx => hc x (List.mem_cons_of_mem c hx)) s hm

theorem buildDefinition_len (convs : List Conversation) (username : String) :
    (buildDefinition convs username).length =
      (introFor username).length + sumLen (buildLoop convs 1 (introFor username).length) := by
  unfold buildDefinition
  rw [join_len, sumLen_cons]

/-! ## The claims -/

/-- Claim C1, counterexample: on the input `[exConvA, exConvB]` (equal
scores 1, lengths 2 and 1) the sort places the shorter conversation
first, so the adjacent pair violates the claimed ordering
`a.score > b.score or (a.score == b.score and a.length >= b.length)`. -/
theorem c1_selector_ordering_counterexample :
    ¬ List.Chain' (fun a b : Conversation =>
        a.score > b.score ∨ (a.score = b.score ∧ b.length ≤ a.length))
      (sortConversations [exConvA, exConvB]) := by
  have h : sortConversations [exConvA, exConvB] = [exConvB, exConvA] := by decide
  rw [h]
  simp [List.chain'_cons, exConvA, exConvB]

/-- Claim C1 (amended): for every input, all adjacent conversations
`(a, b)` in the order produced by the sort of line 105 satisfy
`a.score > b.score`, or `a.score == b.score` and `a.length <= b.length`:
descending by score, and among equal scores ascending by length (the
shorter conversation comes first), because `reverse=True` also reverses
the direction of the negated length component of the key. -/
theorem c1_selector_ordering (l : List Conversation) :
    List.Chain' (fun a b : Conversation =>
      a.score > b.score ∨ (a.score = b.score ∧ a.length ≤ b.length))
      (sortConversations l) := by
  have hs : List.Sorted sortRel (sortConversations l) :=
    List.sorted_insertionSort sortRel l
  have hp : List.Pairwise sortRel (sortConversations l) := hs
  exact hp.chain'.imp (fun {a b} h => sortRel_imp a b h)

/-- Claim C2, counterexample: the intro line is appended without any
budget check, so for the 32001-character username the artifact built
from the empty conversation list is the intro alone and exceeds
`max_definition_length = 32000`. -/
theorem c2_budget_counterexample :
    ¬ ((buildDefinition [] bigUsername).length ≤ maxDefinitionLength) := by
  have hb : bigUsername.length = 32001 := by
    unfold bigUsername
    rw [String.length_mk, List.length_replicate]
  have hpre : ("This character is based on the Reddit user u/" : String).length = 45 := rfl
  have hsuf : (". Here are examples of how they typically respond:\n\n" : String).length = 52 := rfl
  have he1 : buildLoop [] 1 (introFor bigUsername).length = [] := rfl
  have he2 : sumLen ([] : List String) = 0 := rfl
  have h1 : (buildDefinition [] bigUsername).length = (introFor bigUsername).length := by
    rw [buildDefinition_len, he1, he2, Nat.add_zero]
  have h2 : (introFor bigUsername).length = 45 + bigUsername.length + 52 := by
    unfold introFor
    rw [String.length_append, String.length_append, hpre, hsuf]
  rw [h1, h2, hb]
  simp only [maxDefinitionLength]
  omega

/-- Claim C2 (amended): whenever the intro line itself fits in
`max_definition_length` (in particular for every username of realistic
length), the artifact returned by `_build_definition` has length at most
`max_definition_length = 32000`; the loop never appends a conversation
that would push the running total past the budget. -/
theorem c2_budget (convs : List Conversation) (username : String)
    (h : (introFor username).length ≤ maxDefinitionLength) :
    (buildDefinition convs username).length ≤ maxDefinitionLength := by
  have hb := buildLoop_budget convs 1 (introFor username).length h
  have hj := buildDefinition_len convs username
  omega

theorem c2_budget_witness :
    (introFor "alice").length ≤ maxDefinitionLength ∧
      (buildDefinition [exConvC] "alice").length ≤ maxDefinitionLength :=
  ⟨by decide, c2_budget [exConvC] "alice" (by decide)⟩

/-- Claim C3: when every conversation handed to the packer passes the
retention check of `_extract_conversations` (its rendering with the
`\x7b\x7brandom_user_1\x7d\x7d` placeholder is at most
`max_single_conversation_length = 800` characters), every block the
packer appends after the intro also has length at most 800, because the
five rotating placeholders all have the same length. -/
theorem c3_per_item_bound (convs : List Conversation) (username : String)
    (h : ∀ c ∈ convs,
      (formatForCharacterAI c (placeholderStr 1)).length ≤ maxSingleConversationLength) :
    ∀ s ∈ buildLoop convs 1 (introFor username).length,
      s.length ≤ maxSingleConversationLength :=
  c3_per_item_general convs 1 (introFor username).length (by omega) (by omega) h

theorem c3_per_item_bound_witness :
    (formatForCharacterAI exConvC (placeholderStr 1)).length ≤ maxSingleConversationLength :=
  c3_per_item_bound [exConvC] "bob"
    (by decide) (formatForCharacterAI exConvC (placeholderStr 1)) (by decide)

/-- Claim C4: the packer stops rather than skips.  For every input
state, the blocks produced by the loop of `_build_definition` are the
renderings of a prefix `take k` of the input, and either the whole input
was consumed or rendering conversation `k` at the state reached after
that prefix would exceed `max_definition_length`; in particular nothing
after the first overflowing conversation is ever appended. -/
theorem c4_stop_not_skip (convs : List Conversation) (counter total : Nat) :
    ∃ k, k ≤ convs.length ∧
      buildLoop convs counter total = renderAll (convs.take k) counter ∧
      (k = convs.length ∨
        total + sumLen (renderAll (convs.take k) counter) +
          (formatForCharacterAI (convs.getD k defaultConv)
            (placeholderStr (rotIter counter k))).length > maxDefinitionLength) := by
  induction convs generalizing counter total with
  | nil => exact ⟨0, by simp, by simp [buildLoop, renderAll], Or.inl rfl⟩
  | cons c rest ih =>
    by_cases hov : total + (formatForCharacterAI c (placeholderStr counter)).length
        > maxDefinitionLength
    · refine ⟨0, by simp, by simp [buildLoop, hov, renderAll], Or.inr ?_⟩
      simpa [renderAll, sumLen, rotIter] using hov
    · obtain ⟨k, hk, heq, hdis⟩ := ih (counter % 5 + 1)
        (total + (formatForCharacterAI c (placeholderStr counter)).length)
      refine ⟨k + 1, by simpa using Nat.succ_le_succ hk, ?_, ?_⟩
      · simp [buildLoop, hov, List.take_succ_cons, renderAll, heq]
      · cases hdis with
        | inl h => exact Or.inl (by simp [h])
        | inr h =>
          refine Or.inr ?_
          simp only [List.take_succ_cons, renderAll, sumLen_cons, List.getD_cons_succ]
          have hrot : rotIter counter (k + 1) = rotIter (counter % 5 + 1) k := rfl
          rw [hrot]
          omega

/-- Claim C5: with the counter starting at 1 as in `_build_definition`,
the n-th accepted conversation (0-based index `n`) is rendered with the
placeholder `\x7b\x7brandom_user_c\x7d\x7d` where
`c = n % 5 + 1` (1-based: `((n-1) mod 5) + 1`): the counter starts at 1,
cycles through 1 to 5, wraps back to 1, and advances once per accepted
conversation. -/
theorem c5_placeholder_rotation (convs : List Conversation) (total n : Nat)
    (h : n < (buildLoop convs 1 total).length) :
    (buildLoop convs 1 total).getD n "" =
      formatForCharacterAI (convs.getD n defaultConv) (placeholderStr (n % 5 + 1)) := by
  have hg := buildLoop_getD convs 1 total n h
  rwa [rotIter_one] at hg

theorem c5_placeholder_rotation_witness :
    5 < (buildLoop (List.replicate 6 exConvC) 1 0).length ∧
      (buildLoop (List.replicate 6 exConvC) 1 0).getD 5 "" =
        formatForCharacterAI ((List.replicate 6 exConvC).getD 5 defaultConv)
          (placeholderStr (5 % 5 + 1)) :=
  ⟨by decide, c5_placeholder_rotation (List.replicate 6 exConvC) 0 5 (by decide)⟩

/-- Claim C6: the sanitizer is not idempotent.  On the failing input
`"^^a"` the superscript substitution `\^(.+?)` deletes the first caret
and consumes the second with the match, so one application yields
`"^a"` while a second application yields `"a"`. -/
theorem c6_sanitize_not_idempotent :
    cleanText "^^a" = "^a" ∧ cleanText (cleanText "^^a") = "a" ∧
      cleanText (cleanText "^^a") ≠ cleanText "^^a" := by
  refine ⟨by decide, by decide, by decide⟩

/-- Claim C7, counterexample: the sanitizer does not map the scenario
input to `"hi"`; the word `check` survives every substitution. -/
theorem c7_scenario_a_counterexample :
    cleanText "**hi** u/bob check http://x.co EDIT: nvm" ≠ "hi" := by decide

/-- Claim C7 (amended): sanitizing the exact input
`"**hi** u/bob check http://x.co EDIT: nvm"` yields exactly
`"hi check"`: the bold markup is unwrapped, the user mention, the URL
and the edit tail are removed, and the plain word `check` is kept. -/
theorem c7_scenario_a :
    cleanText "**hi** u/bob check http://x.co EDIT: nvm" = "hi check" := by decide

/-- Claim C8: `_extract_conversations` produces no conversation from a
record whose body length is below `min_comment_length = 10` or above
`max_comment_length = 300`, whatever its other fields. -/
theorem c8_builder_rejects_out_of_range (c : RawComment)
    (h : c.body.length < minCommentLength ∨ c.body.length > maxCommentLength) :
    buildConversation c = none := by
  unfold buildConversation
  by_cases h0 : c.body = "" ∨ c.body = "[deleted]" ∨ c.body = "[removed]"
  · rw [if_pos h0]
  · rw [if_neg h0, if_pos h]

theorem c8_builder_rejects_out_of_range_witness :
    (exRecord.body.length < minCommentLength ∨ exRecord.body.length > maxCommentLength) ∧
      buildConversation exRecord = none :=
  ⟨by decide, c8_builder_rejects_out_of_range exRecord (by decide)⟩

/-- Claim C9: for every conversation, rendering with any two of the
rotating placeholders 1 to 5 gives strings of the same length, because
the five placeholder tokens all have 17 characters; the single length
pre-check of the Builder with placeholder 1 is therefore sound for
whichever placeholder the packer later assigns. -/
theorem c9_placeholder_uniform (conv : Conversation) (i j : Nat)
    (hi1 : 1 ≤ i) (hi5 : i ≤ 5) (hj1 : 1 ≤ j) (hj5 : j ≤ 5) :
    (formatForCharacterAI conv (placeholderStr i)).length =
      (formatForCharacterAI conv (placeholderStr j)).length := by
  apply format_len_eq
  rw [placeholderStr_len i hi1 hi5, placeholderStr_len j hj1 hj5]

theorem c9_placeholder_uniform_witness :
    (formatForCharacterAI exConvC (placeholderStr 1)).length =
      (formatForCharacterAI exConvC (placeholderStr 5)).length :=
  c9_placeholder_uniform exConvC 1 5 (by decide) (by decide) (by decide) (by decide)

/-- Claim C10: the sanitizer never lengthens its input: every
substitution of `_clean_text` either keeps characters or removes them,
so the cleaned text is never longer than the raw text. -/
theorem c10_sanitize_never_lengthens (s : String) : (cleanText s).length ≤ s.length := by
  unfold cleanText
  split
  · next h => simp [h]
  · exact cleanList_len s.data

end RedditCAI
